import Mathlib

/-!
Shallow embedding of the zone-constrained detour routing code
(`src/satrouting/path_finding.py`, `position_utils.py`, `zone_utils.py`).

Nodes are integers (negative ids are ground stations), edge weights are
rationals (the Python floats in every scenario considered here are small
dyadic rationals, so float arithmetic is exact and agrees with ℚ).
An undirected `networkx` graph is modelled as a node list, an edge list,
and a weight function; destructive operations (`remove_edges_from`,
`remove_nodes_from`) only filter the node/edge lists.  A raised Python
exception that the function does not catch is modelled as `none` / `.error ()`;
`nx.shortest_path` is modelled as a deterministic minimum-weight simple
path search (`SPResult` distinguishes `NodeNotFound` from `NetworkXNoPath`,
since the code catches only the latter).
-/

attribute [local semireducible] Rat.add Rat.mul Rat.sub Rat.inv

abbrev Weight := ℚ

structure Graph where
  nodes : List Int
  edges : List (Int × Int)
  w : Int → Int → Weight

/-- Symmetric weight lookup: `networkx` stores one weight per unordered pair. -/
def Graph.getW (G : Graph) (u v : Int) : Weight :=
  G.w (min u v) (max u v)

def Graph.hasEdge (G : Graph) (u v : Int) : Bool :=
  G.edges.any (fun e => (e.1 = u && e.2 = v) || (e.1 = v && e.2 = u))

/-- `G.remove_edges_from es` (edges absent from the graph are ignored). -/
def Graph.removeEdges (G : Graph) (es : List (Int × Int)) : Graph :=
  { G with edges := G.edges.filter (fun e =>
      !(es.any (fun r => (r.1 = e.1 && r.2 = e.2) || (r.1 = e.2 && r.2 = e.1)))) }

/-- `G.remove_nodes_from ns` removes the nodes and all incident edges. -/
def Graph.removeNodes (G : Graph) (ns : List Int) : Graph :=
  { G with
    nodes := G.nodes.filter (fun n => !(ns.contains n)),
    edges := G.edges.filter (fun e => !(ns.contains e.1) && !(ns.contains e.2)) }

def Graph.neighbors (G : Graph) (u : Int) : List Int :=
  G.edges.foldr (fun e acc =>
    if e.1 = u then e.2 :: acc else if e.2 = u then e.1 :: acc else acc) []

/-- Sum of the weights of consecutive pairs along a node sequence,
mirroring `sum(G[u][v]['length'] for u, v in zip(path, path[1:]))`. -/
def pathWeight (G : Graph) : List Int → Weight
  | u :: v :: rest => G.getW u v + pathWeight G (v :: rest)
  | _ => 0

/-- All simple paths from `u` to `t` (bounded by fuel); every result starts
at `u` and ends at `t`. -/
def simplePathsAux (G : Graph) (t : Int) : Nat → Int → List Int → List (List Int)
  | 0, _, _ => []
  | fuel+1, u, visited =>
    if u = t then [[u]]
    else
      (G.neighbors u).foldr (fun v acc =>
        if visited.contains v then acc
        else ((simplePathsAux G t fuel v (v :: visited)).map (u :: ·)) ++ acc) []

def simplePaths (G : Graph) (s t : Int) : List (List Int) :=
  simplePathsAux G t G.nodes.length s [s]

/-- First minimum-weight element of a list of candidate paths. -/
def pickMin (G : Graph) : List (List Int) → Option (List Int)
  | [] => none
  | p :: ps =>
    match pickMin G ps with
    | none => some p
    | some q => if pathWeight G q < pathWeight G p then some q else some p

/-- Result of `nx.shortest_path`: `notFound` models `NodeNotFound` (an endpoint
is missing from the graph, not caught by `except nx.NetworkXNoPath`), `noPath`
models `NetworkXNoPath`. -/
inductive SPResult where
  | notFound
  | noPath
  | found (p : List Int)
deriving DecidableEq, Repr

/-- Model of `nx.shortest_path(G, s, t, weight='length')`: a minimum-weight
simple path (deterministic tie-break: first in enumeration order). -/
def shortest_path (G : Graph) (s t : Int) : SPResult :=
  if s ∈ G.nodes ∧ t ∈ G.nodes then
    match pickMin G (simplePaths G s t) with
    | some p => .found p
    | none => .noPath
  else .notFound

/-- Helper for building concrete graphs from a weighted edge list. -/
def mkGraph (nodes : List Int) (es : List (Int × Int × Weight)) : Graph :=
  { nodes := nodes
  , edges := es.map (fun e => (e.1, e.2.1))
  , w := fun u v =>
      (((es.find? (fun e => (e.1 = u && e.2.1 = v) || (e.1 = v && e.2.1 = u))).map
        (fun e => e.2.2)).getD 0) }

section PositionUtils

/-- `position_utils.get_node_position` (verbatim translation; `//` is
floor division, modelled by `Int.fdiv`). -/
def get_node_position (node : Int) : Option (Int × Int) :=
  if node < 0 then none
  else
    let plane := Int.fdiv node 66
    let index_in_plane := 66 - (node - 66 * plane)
    let x := if index_in_plane > 32 then index_in_plane - 33 else index_in_plane + 33
    some (x, -plane)

/-- The position formula as worded by claim C5 / spec §4.2: fold threshold
`indexInPlane > 33` (the code uses `> 32`). -/
def claim_node_position (node : Int) : Option (Int × Int) :=
  if node < 0 then none
  else
    let plane := Int.fdiv node 66
    let index_in_plane := 66 - (node - 66 * plane)
    let x := if index_in_plane > 33 then index_in_plane - 33 else index_in_plane + 33
    some (x, -plane)

end PositionUtils

section ZoneUtils

/-- A positions dictionary (`node_positions`), in insertion order. -/
abbrev PosMap := List (Int × ℚ × ℚ)

def lookupPos (ps : PosMap) (n : Int) : Option (ℚ × ℚ) :=
  (ps.find? (fun e => e.1 = n)).map (fun e => e.2)

/-- Zone boundaries derived from the corner positions
(`zone_utils.find_nodes_in_spare_zones`, lines 31-38): result is
`(left, right, min_y, max_y)` from the top-left / top-right / bottom-left
corners; `none` models the `KeyError` raised when a corner id is missing
from `node_positions` (the bottom-right corner is never looked up). -/
def zoneBounds (ps : PosMap) (zone : Int × Int × Int × Int) :
    Option (ℚ × ℚ × ℚ × ℚ) :=
  match lookupPos ps zone.1, lookupPos ps zone.2.1, lookupPos ps zone.2.2.1 with
  | some tl, some tr, some bl =>
      some (tl.1, tr.1, min tl.2 bl.2, max tl.2 bl.2)
  | _, _, _ => none

/-- The membership test of `find_nodes_in_spare_zones`: wrapped x-band when
the left bound exceeds the right bound, then the y-band check. -/
def zoneTest (b : ℚ × ℚ × ℚ × ℚ) (x y : ℚ) : Bool :=
  (if b.1 > b.2.1 then decide (x ≥ b.1) || decide (x ≤ b.2.1)
   else decide (b.1 ≤ x) && decide (x ≤ b.2.1))
  && decide (b.2.2.1 ≤ y) && decide (y ≤ b.2.2.2)

/-- Bounds of every zone, `none` as soon as one zone has a missing corner. -/
def zoneBoundsAll (ps : PosMap) : List (Int × Int × Int × Int) →
    Option (List (ℚ × ℚ × ℚ × ℚ))
  | [] => some []
  | z :: zs =>
    match zoneBounds ps z, zoneBoundsAll ps zs with
    | some b, some bs => some (b :: bs)
    | _, _ => none

/-- `zone_utils.find_nodes_in_spare_zones`.  The code loops over graph nodes,
skipping ground stations (`node < 0`) and nodes without a position, and tests
each remaining node against every zone; per-zone member lists come out in
node-iteration order.  Corner positions are looked up for every zone as soon
as one node is processed, so a missing corner raises `KeyError` (modelled as
`none`) exactly when at least one node is processed. -/
def find_nodes_in_spare_zones (G : Graph) (spare_zones : List (Int × Int × Int × Int))
    (node_positions : PosMap) : Option (List (List Int)) :=
  let processed := G.nodes.filterMap (fun n =>
    if n < 0 then none else (lookupPos node_positions n).map (fun p => (n, p)))
  if processed.isEmpty then some (spare_zones.map (fun _ => []))
  else
    match zoneBoundsAll node_positions spare_zones with
    | none => none
    | some bs =>
        some (bs.map (fun b =>
          (processed.filter (fun np => zoneTest b np.2.1 np.2.2)).map (fun np => np.1)))

end ZoneUtils

section PathFinding

def SATS_PER_PLANE : Int := 66

structure Baseline where
  path : List Int
  weight : Weight
  targetWeight : Weight
  initialSat : Int
deriving DecidableEq, Repr

/-- Lines 38-41: the baseline shortest path, its weight, the 1.25 target
factor and the initial hop node `shortest_path[1]`.  `none` models the
uncaught `NetworkXNoPath` / `NodeNotFound` of the baseline query, and the
`IndexError` of `shortest_path[1]` when the path has fewer than two nodes. -/
def computeBaseline (G : Graph) (source target : Int) : Option Baseline :=
  match shortest_path G source target with
  | .found p =>
      if 2 ≤ p.length then
        let wt := pathWeight G p
        some ⟨p, wt, wt * (5/4), p[1]!⟩
      else none
  | _ => none

/-- Line 44: `list(zip(shortest_path[1:-1], shortest_path[2:]))`. -/
def edges_to_remove (p : List Int) : List (Int × Int) :=
  ((p.drop 1).dropLast).zip (p.drop 2)

/-- Lines 43-47: the working graph for the detour search, after removing
`edges_to_remove` and the initial hop `(initial_sat, source)`. -/
def workingGraph (G : Graph) (source : Int) (b : Baseline) : Graph :=
  (G.removeEdges (edges_to_remove b.path)).removeEdges [(b.initialSat, source)]

structure Cand where
  path : List Int
  weight : Weight
  zoneIdx : Nat
deriving DecidableEq, Repr

/-- Inner loop shared by the entry scan (lines 69-85, `anchor = initial_sat`,
`basePlane = initial_plane`) and the exit scan (lines 104-120,
`anchor = target`, `basePlane = entry_plane`): skip zone nodes moving against
the direction, skip unreachable ones (`except nx.NetworkXNoPath: continue`),
and keep the strictly lightest path found so far together with its zone. -/
def scanZoneNodes (Gc : Graph) (direction basePlane anchor : Int) (zidx : Nat) :
    List Int → Option Cand → Except Unit (Option Cand)
  | [], best => .ok best
  | z :: zs, best =>
    if direction * (Int.fdiv z SATS_PER_PLANE - basePlane) < 0 then
      scanZoneNodes Gc direction basePlane anchor zidx zs best
    else
      match shortest_path Gc anchor z with
      | .notFound => .error ()
      | .noPath => scanZoneNodes Gc direction basePlane anchor zidx zs best
      | .found p =>
        let wt := pathWeight Gc p
        let best' :=
          match best with
          | none => some ⟨p, wt, zidx⟩
          | some c => if wt < c.weight then some ⟨p, wt, zidx⟩ else some c
        scanZoneNodes Gc direction basePlane anchor zidx zs best'

def scanZones (Gc : Graph) (direction basePlane anchor : Int) :
    List (Nat × List Int) → Option Cand → Except Unit (Option Cand)
  | [], best => .ok best
  | (zidx, zns) :: rest, best =>
    match scanZoneNodes Gc direction basePlane anchor zidx zns best with
    | .error e => .error e
    | .ok best' => scanZones Gc direction basePlane anchor rest best'

/-- Lines 96-101: zones with at least one node maintaining the direction
from the entry plane. -/
def validZones (zones : List (Nat × List Int)) (direction entryPlane : Int) :
    List (Nat × List Int) :=
  zones.filter (fun zp =>
    zp.2.any (fun n => decide (direction * (Int.fdiv n SATS_PER_PLANE - entryPlane) ≥ 0)))

structure Insertion where
  i : Nat
  node : Int
  pathTo : List Int
  pathFrom : List Int
deriving DecidableEq, Repr

/-- One refinement trial (lines 157-182): on a copy of the working graph with
all current zone-path nodes removed except the two flanking position `i`,
find sub-paths `zone_path[i-1] → node` and `node → zone_path[i]`, reject the
trial if their interiors meet the current path, otherwise report the weight
increase over the replaced edge. -/
def trialInsertion (Gc : Graph) (q : List Int) (node : Int) (i : Nat) :
    Except Unit (Option (Insertion × Weight)) :=
  let H := Gc.removeNodes (q.filter (fun n => !(n == q[i-1]!) && !(n == q[i]!)))
  match shortest_path H q[i-1]! node with
  | .notFound => .error ()
  | .noPath => .ok none
  | .found path_to =>
    match shortest_path H node q[i]! with
    | .notFound => .error ()
    | .noPath => .ok none
    | .found path_from =>
      let all_nodes := (path_to.drop 1).dropLast ++ (path_from.drop 1).dropLast
      if all_nodes.any (fun n => q.contains n) then .ok none
      else
        let segment_weight := pathWeight Gc path_to + pathWeight Gc path_from
        let original_weight := Gc.getW q[i-1]! q[i]!
        .ok (some (⟨i, node, path_to, path_from⟩, segment_weight - original_weight))

/-- Lines 156-182, inner loop over insertion positions `i ∈ range(1, len(q))`,
keeping the smallest strictly positive weight increase. -/
def scanPositions (Gc : Graph) (q : List Int) (node : Int) :
    List Nat → Option (Insertion × Weight) → Except Unit (Option (Insertion × Weight))
  | [], best => .ok best
  | i :: rest, best =>
    match trialInsertion Gc q node i with
    | .error e => .error e
    | .ok none => scanPositions Gc q node rest best
    | .ok (some (ins, winc)) =>
      let best' :=
        match best with
        | none => if 0 < winc then some (ins, winc) else none
        | some b => if 0 < winc ∧ winc < b.2 then some (ins, winc) else some b
      scanPositions Gc q node rest best'

/-- Lines 155-182, outer loop over available zone nodes. -/
def scanInsertions (Gc : Graph) (q : List Int) :
    List Int → Option (Insertion × Weight) → Except Unit (Option (Insertion × Weight))
  | [], best => .ok best
  | node :: ns, best =>
    match scanPositions Gc q node (List.range' 1 (q.length - 1)) best with
    | .error e => .error e
    | .ok best' => scanInsertions Gc q ns best'

structure RefState where
  zone_path : List Int
  zone_weight : Weight
  total_weight : Weight
  needed_weight : Weight
deriving DecidableEq, Repr

/-- Lines 186-187: splice the winning insertion into the zone path. -/
def splice (q : List Int) (ins : Insertion) : List Int :=
  q.take (ins.i - 1) ++ ins.pathTo ++ ins.pathFrom.drop 1 ++ q.drop (ins.i + 1)

/-- Lines 145-194, the weight-refinement loop, fuel-indexed.  The loop exits
when the needed weight is met, no zone node remains unused, or no valid
positive-increase insertion exists; `refineLoop_stable` below shows the fuel
used by `directionAttempt` makes the recursion equal to the unbounded loop. -/
def refineLoop (Gc : Graph) (zoneNodes : List Int) : Nat → RefState → Except Unit RefState
  | 0, st => .ok st
  | fuel+1, st =>
    if 0 < st.needed_weight then
      let available := zoneNodes.filter (fun n => !(st.zone_path.contains n))
      if available.isEmpty then .ok st
      else
        match scanInsertions Gc st.zone_path available none with
        | .error e => .error e
        | .ok none => .ok st
        | .ok (some (ins, winc)) =>
          refineLoop Gc zoneNodes fuel
            ⟨splice st.zone_path ins, st.zone_weight + winc,
             st.total_weight + winc, st.needed_weight - winc⟩
    else .ok st

/-- `nodes_in_zones[best_zone_idx]` (line 146). -/
def zoneMembers (zones : List (Nat × List Int)) (idx : Nat) : List Int :=
  ((zones.find? (fun zp => zp.1 == idx)).map (fun zp => zp.2)).getD []

/-- One iteration of the direction loop (lines 56-205): entry scan, exit scan
over the direction-valid zones, initial zone path, weight refinement keyed by
the best exit's zone, and the final acceptance test.  `.ok none` corresponds
to the `continue` paths that fall through to the other direction. -/
def directionAttempt (G Gc : Graph) (nodes_in_zones : List (Nat × List Int))
    (source target : Int) (b : Baseline) (direction : Int) :
    Except Unit (Option (List Int × Weight)) :=
  let initialPlane := Int.fdiv b.initialSat SATS_PER_PLANE
  match scanZones Gc direction initialPlane b.initialSat nodes_in_zones none with
  | .error e => .error e
  | .ok none => .ok none
  | .ok (some entry) =>
    let entryPlane := Int.fdiv entry.path.getLast! SATS_PER_PLANE
    match scanZones Gc direction entryPlane target
        (validZones nodes_in_zones direction entryPlane) none with
    | .error e => .error e
    | .ok none => .ok none
    | .ok (some exitC) =>
      let rf_weight := G.getW source b.initialSat
      let current_weight := rf_weight + entry.weight + exitC.weight
      let entry_node := entry.path.getLast!
      let exit_node := exitC.path.getLast!
      match shortest_path Gc entry_node exit_node with
      | .notFound => .error ()
      | .noPath => .ok none
      | .found zone_path0 =>
        let zone_weight := pathWeight Gc zone_path0
        let total_weight := current_weight + zone_weight
        let pool := zoneMembers nodes_in_zones exitC.zoneIdx
        match refineLoop Gc pool (pool.length + 1)
            ⟨zone_path0, zone_weight, total_weight, b.targetWeight - total_weight⟩ with
        | .error e => .error e
        | .ok st =>
          if st.total_weight ≥ b.targetWeight then
            .ok (some (source :: entry.path.dropLast ++ st.zone_path ++
                       exitC.path.dropLast.reverse, st.total_weight))
          else .ok none

/-- `find_path_via_spare_zones` (lines 27-214).  `none` models an uncaught
Python exception, `some []` the no-detour fallback, `some [p]` a successful
detour.  The `positions` parameter is unused, as in the source.  The
direction loop tries `+1` then `-1` and stops at the first success; line 208
reads `best_overall_path[2]`, which raises `IndexError` on a path with fewer
than three nodes. -/
def find_path_via_spare_zones (G : Graph) (positions : PosMap)
    (nodes_in_zones : List (Nat × List Int)) (source target : Int) :
    Option (List (List Int)) :=
  match computeBaseline G source target with
  | none => none
  | some b =>
    let Gc := workingGraph G source b
    match directionAttempt G Gc nodes_in_zones source target b 1 with
    | .error _ => none
    | .ok (some r) => if 2 < r.1.length then some [r.1] else none
    | .ok none =>
      match directionAttempt G Gc nodes_in_zones source target b (-1) with
      | .error _ => none
      | .ok (some r) => if 2 < r.1.length then some [r.1] else none
      | .ok none => some []

end PathFinding

section DerivedPredicates

/-- The consecutive node pairs of a path. -/
def consecutivePairs (p : List Int) : List (Int × Int) :=
  p.zip (p.drop 1)

/-- `u`-`v` is (orientation-insensitively) one of the edges of path `p`. -/
def isPathEdge (p : List Int) (u v : Int) : Bool :=
  (consecutivePairs p).any (fun e => (e.1 = u && e.2 = v) || (e.1 = v && e.2 = u))

instance exceptDecEq {α β : Type} [DecidableEq α] [DecidableEq β] :
    DecidableEq (Except α β) := fun x y =>
  match x, y with
  | .error a, .error b =>
    if h : a = b then .isTrue (congrArg Except.error h)
    else .isFalse (fun hc => h (Except.error.inj hc))
  | .error _, .ok _ => .isFalse (fun hc => Except.noConfusion hc)
  | .ok _, .error _ => .isFalse (fun hc => Except.noConfusion hc)
  | .ok a, .ok b =>
    if h : a = b then .isTrue (congrArg Except.ok h)
    else .isFalse (fun hc => h (Except.ok.inj hc))

/-- `u`-`v` matches (orientation-insensitively) some pair of the removal
list `es`, exactly the test used by `Graph.removeEdges`. -/
def removalMatches (es : List (Int × Int)) (u v : Int) : Bool :=
  es.any (fun r => (r.1 = u && r.2 = v) || (r.1 = v && r.2 = u))

/-- The junction weight between two node sequences: the weight of the edge
from the last node of `X` to the first node of `Y` (0 when either is empty). -/
def linkW (G : Graph) (X Y : List Int) : Weight :=
  match X.getLast?, Y.head? with
  | some a, some b => G.getW a b
  | _, _ => 0

/-- A candidate produced by a zone scan anchored at `anchor`: its path is a
shortest path from the anchor to some member node of its recorded zone, and
its weight is that path's weight. -/
def CandFrom (Gc : Graph) (anchor : Int) (zones : List (Nat × List Int)) (c : Cand) : Prop :=
  ∃ zn, (c.zoneIdx, zn) ∈ zones ∧
    ∃ z, z ∈ zn ∧ shortest_path Gc anchor z = .found c.path ∧
      c.weight = pathWeight Gc c.path

end DerivedPredicates

section ConcreteInstances

/-- A seven-node graph on which the detour search succeeds but the returned
path revisits a node: the entry path `0→1→2` and the exit path `-2→1→2`
share the hub node `1`. -/
def Gcb : Graph := mkGraph [-1, -2, 0, 1, 2, 3, 5]
  [(-1, 0, 1), (0, 5, 1/2), (5, -2, 1/2), (0, 1, 1), (1, 2, 1), (1, 3, 3/2), (1, -2, 1)]

/-- Modelled from the spec: the concrete scenario of §8 (claim C6), which no
code under `src/` constructs — two planes of four satellites (ids 0-7),
intra-plane ring edges of weight 1, cross-plane edges of weight 2, ground
station -1 linked to node 0 and ground station -2 linked to node 5, both with
weight 1. -/
def Gsc : Graph := mkGraph [-1, -2, 0, 1, 2, 3, 4, 5, 6, 7]
  [(0, 1, 1), (1, 2, 1), (2, 3, 1), (3, 0, 1),
   (4, 5, 1), (5, 6, 1), (6, 7, 1), (7, 4, 1),
   (0, 4, 2), (1, 5, 2), (2, 6, 2), (3, 7, 2),
   (-1, 0, 1), (-2, 5, 1)]

/-- Modelled from the spec: the zone membership map of the §8 scenario,
a single zone with member nodes {2, 3, 6, 7}. -/
def scZones : List (Nat × List Int) := [(0, [2, 3, 6, 7])]

/-- A graph with two zones on which the nearest entry lands in zone 0 while
the best exit lands in zone 1. -/
def Gc4 : Graph := mkGraph [-1, -2, 0, 1, 2, 3, 9]
  [(-1, 0, 1), (0, 9, 1), (9, -2, 1), (0, 1, 1), (1, 2, 1), (-2, 3, 1), (3, 2, 1)]

def zonesC4 : List (Nat × List Int) := [(0, [1]), (1, [2])]

/-- The baseline of `Gc4` between the ground stations. -/
def bC4 : Baseline := ⟨[-1, 0, 9, -2], 3, 15/4, 0⟩

/-- The baseline of `Gcb` between the ground stations. -/
def bGcb : Baseline := ⟨[-1, 0, 5, -2], 2, 5/2, 0⟩

/-- A two-node graph with no edges: source and target disconnected. -/
def Gdisc : Graph := mkGraph [-1, -2] []

/-- An edgeless graph holding one plane of 66 satellites, for the zone
wraparound check. -/
def GWrap : Graph := mkGraph ((List.range 66).map (fun n => (n : Int))) []

/-- Positions placing satellite `n` at `(n, 0)`, and zone-corner ids
100-103 so that the zone's x-band is `(60, 5)` (wrapped). -/
def wrapPos : PosMap :=
  (List.range 66).map (fun n => ((n : Int), ((n : ℚ), (0 : ℚ)))) ++
    [(100, (60, 0)), (101, (5, 0)), (102, (60, 0)), (103, (5, 0))]

def wrapZones : List (Int × Int × Int × Int) := [(100, 101, 102, 103)]

/-- A triangle graph on which the refinement loop accepts one insertion:
the zone path `[0, 1]` (weight 1) is widened through zone node 2 into
`[0, 2, 1]` (weight 2). -/
def Gr : Graph := mkGraph [0, 1, 2] [(0, 1, 1), (0, 2, 1), (2, 1, 1)]

end ConcreteInstances

/-! ### Claim theorems -/

/-- C5 (counterexample): the claim's fold threshold `indexInPlane > 33`
disagrees with the code's `> 32` at node 33, where `indexInPlane = 33`:
the code returns x = 0, the claim's formula predicts x = 66. -/
theorem C5_fold_threshold_cex :
    get_node_position 33 ≠ claim_node_position 33 ∧
    get_node_position 33 = some (0, 0) ∧
    claim_node_position 33 = some (66, 0) := by decide

/-- C2 (code_bug evidence): on `Gcb` the detour search succeeds, but the
returned path `[-1, 0, 1, 2, 1, -2]` visits node 1 twice — the entry path
`0→1→2` and the reversed exit path `2→1→-2` share the hub node 1, and the
code never checks the assembled path for repeated nodes. -/
theorem C2_nonsimple_path_returned :
    find_path_via_spare_zones Gcb [] [(0, [2, 3])] (-1) (-2) =
      some [[-1, 0, 1, 2, 1, -2]] ∧
    ([-1, 0, 1, 2, 1, -2] : List Int).count 1 = 2 ∧
    ¬ ([-1, 0, 1, 2, 1, -2] : List Int).Nodup := by decide

/-- C6 (code_bug evidence): on the spec's §8 scenario the claimed baseline
weight (5) and target weight (25/4) are as expected, but the search removes
the baseline's final edge (5, -2) — the target's only link — so the target is
isolated in the working graph and the function returns `[]` instead of the
expected zone detour of weight ≥ 6.25. -/
theorem C6_scenario_returns_empty :
    pathWeight Gsc [-1, 0, 4, 5, -2] = 5 ∧
    computeBaseline Gsc (-1) (-2) = some ⟨[-1, 0, 1, 5, -2], 5, 25/4, 0⟩ ∧
    (workingGraph Gsc (-1) ⟨[-1, 0, 1, 5, -2], 5, 25/4, 0⟩).neighbors (-2) = [] ∧
    find_path_via_spare_zones Gsc [] scZones (-1) (-2) = some [] := by decide

/-- C3 (counterexample): contrary to the claim, both the initial hop
`(-1, 0)` and the baseline's final edge `(5, -2)` are removed from the
working graph before the detour search. -/
theorem C3_initial_hop_removed_cex :
    computeBaseline Gcb (-1) (-2) = some bGcb ∧
    Gcb.hasEdge (-1) 0 = true ∧
    (workingGraph Gcb (-1) bGcb).hasEdge (-1) 0 = false ∧
    Gcb.hasEdge 5 (-2) = true ∧
    (workingGraph Gcb (-1) bGcb).hasEdge 5 (-2) = false := by decide

/-! ### Supporting lemmas: shortest-path results and path-weight algebra -/

theorem getW_comm (G : Graph) (u v : Int) : G.getW u v = G.getW v u := by
  unfold Graph.getW
  rw [min_comm, max_comm]

theorem pathWeight_nil (G : Graph) : pathWeight G [] = 0 := rfl

theorem pathWeight_single (G : Graph) (u : Int) : pathWeight G [u] = 0 := rfl

theorem pathWeight_cons2 (G : Graph) (u v : Int) (rest : List Int) :
    pathWeight G (u :: v :: rest) = G.getW u v + pathWeight G (v :: rest) := rfl

theorem pathWeight_removeEdges (G : Graph) (es : List (Int × Int)) (p : List Int) :
    pathWeight (G.removeEdges es) p = pathWeight G p := by
  induction p with
  | nil => rfl
  | cons u rest ih =>
    cases rest with
    | nil => rfl
    | cons v rest2 =>
      rw [pathWeight_cons2, pathWeight_cons2, ih]
      rfl

theorem pathWeight_workingGraph (G : Graph) (s : Int) (b : Baseline) (p : List Int) :
    pathWeight (workingGraph G s b) p = pathWeight G p := by
  unfold workingGraph
  rw [pathWeight_removeEdges, pathWeight_removeEdges]

theorem mem_foldr_paths {G : Graph} {t : Int} {fuel : Nat} {u : Int}
    {visited : List Int} {p : List Int} {ns : List Int}
    (h : p ∈ ns.foldr (fun v acc =>
        if visited.contains v then acc
        else ((simplePathsAux G t fuel v (v :: visited)).map (u :: ·)) ++ acc) []) :
    ∃ v, v ∈ ns ∧ ∃ r, r ∈ simplePathsAux G t fuel v (v :: visited) ∧ p = u :: r := by
  induction ns with
  | nil => simp at h
  | cons a as ih =>
    simp only [List.foldr_cons] at h
    by_cases hc : visited.contains a = true
    · rw [if_pos hc] at h
      obtain ⟨v, hv, r, hr, hp⟩ := ih h
      exact ⟨v, List.mem_cons_of_mem _ hv, r, hr, hp⟩
    · rw [if_neg hc] at h
      rcases List.mem_append.1 h with h1 | h2
      · obtain ⟨r, hr, hp⟩ := List.mem_map.1 h1
        exact ⟨a, List.mem_cons_self _ _, r, hr, hp.symm⟩
      · obtain ⟨v, hv, r, hr, hp⟩ := ih h2
        exact ⟨v, List.mem_cons_of_mem _ hv, r, hr, hp⟩

theorem simplePathsAux_spec {G : Graph} {t : Int} :
    ∀ {fuel : Nat} {u : Int} {visited : List Int} {p : List Int},
      p ∈ simplePathsAux G t fuel u visited →
      p ≠ [] ∧ p.head? = some u ∧ p.getLast? = some t := by
  intro fuel
  induction fuel with
  | zero => intro u visited p h; simp [simplePathsAux] at h
  | succ n ih =>
    intro u visited p h
    unfold simplePathsAux at h
    by_cases ht : u = t
    · rw [if_pos ht] at h
      simp only [List.mem_singleton] at h
      subst h; subst ht
      exact ⟨by simp, rfl, rfl⟩
    · rw [if_neg ht] at h
      obtain ⟨v, _, r, hr, hp⟩ := mem_foldr_paths h
      obtain ⟨hne, _, hl⟩ := ih hr
      subst hp
      refine ⟨by simp, rfl, ?_⟩
      cases r with
      | nil => exact absurd rfl hne
      | cons b bs => rw [List.getLast?_cons_cons]; exact hl

theorem pickMin_mem {G : Graph} :
    ∀ {ps : List (List Int)} {p : List Int}, pickMin G ps = some p → p ∈ ps := by
  intro ps
  induction ps with
  | nil => intro p h; simp [pickMin] at h
  | cons q qs ih =>
    intro p h
    unfold pickMin at h
    cases hm : pickMin G qs with
    | none =>
      rw [hm] at h
      injection h with h
      exact h ▸ List.mem_cons_self _ _
    | some r =>
      rw [hm] at h
      have h2 : (if pathWeight G r < pathWeight G q then some r else some q) = some p := h
      by_cases hlt : pathWeight G r < pathWeight G q
      · rw [if_pos hlt] at h2
        injection h2 with h2
        exact h2 ▸ List.mem_cons_of_mem _ (ih hm)
      · rw [if_neg hlt] at h2
        injection h2 with h2
        exact h2 ▸ List.mem_cons_self _ _

theorem shortest_path_found_spec {G : Graph} {s t : Int} {p : List Int}
    (h : shortest_path G s t = .found p) :
    p ≠ [] ∧ p.head? = some s ∧ p.getLast? = some t := by
  unfold shortest_path at h
  by_cases hm : s ∈ G.nodes ∧ t ∈ G.nodes
  · rw [if_pos hm] at h
    cases hp : pickMin G (simplePaths G s t) with
    | none => rw [hp] at h; exact absurd h (by simp)
    | some q =>
      rw [hp] at h
      injection h with h
      subst h
      exact simplePathsAux_spec (pickMin_mem hp)
  · rw [if_neg hm] at h; exact absurd h (by simp)

theorem pathWeight_cons_append (G : Graph) :
    ∀ (xs : List Int) (u y : Int) (ys : List Int),
      pathWeight G (u :: (xs ++ y :: ys)) =
        pathWeight G (u :: xs) +
          pathWeight G ((u :: xs).getLast (by simp) :: y :: ys) := by
  intro xs
  induction xs with
  | nil =>
    intro u y ys
    simp only [List.nil_append, List.getLast_singleton, pathWeight_cons2,
      pathWeight_single]
    ring
  | cons v xs2 ih =>
    intro u y ys
    simp only [List.cons_append, pathWeight_cons2]
    rw [ih v y ys]
    rw [List.getLast_cons (by simp : (v :: xs2) ≠ [])]
    rw [pathWeight_cons2]
    ring

theorem pathWeight_append (G : Graph) (X Y : List Int) :
    pathWeight G (X ++ Y) = pathWeight G X + pathWeight G Y + linkW G X Y := by
  cases X with
  | nil => simp [pathWeight_nil, linkW]
  | cons u xs =>
    cases Y with
    | nil =>
      rw [List.append_nil]
      unfold linkW
      rw [show ([] : List Int).head? = none from rfl]
      cases (u :: xs).getLast? <;> simp [pathWeight_nil]
    | cons y ys =>
      rw [show (u :: xs) ++ y :: ys = u :: (xs ++ y :: ys) from rfl,
        pathWeight_cons_append]
      unfold linkW
      rw [List.getLast?_eq_getLast_of_ne_nil (by simp : (u :: xs) ≠ [])]
      rw [show (y :: ys).head? = some y from rfl]
      rw [pathWeight_cons2]
      ring

theorem linkW_congr_head (G : Graph) (X Y Y2 : List Int) (h : Y.head? = Y2.head?) :
    linkW G X Y = linkW G X Y2 := by
  unfold linkW
  rw [h]

theorem linkW_congr_last (G : Graph) (X X2 Y : List Int) (h : X.getLast? = X2.getLast?) :
    linkW G X Y = linkW G X2 Y := by
  unfold linkW
  rw [h]

theorem pathWeight_glue (G : Graph) (a c : List Int) (ha : a ≠ []) (hc : c ≠ [])
    (h : a.getLast? = c.head?) :
    pathWeight G (a.dropLast ++ c) = pathWeight G a + pathWeight G c := by
  cases c with
  | nil => exact absurd rfl hc
  | cons x cs =>
    have hx : a.getLast ha = x := by
      rw [List.getLast?_eq_getLast_of_ne_nil ha] at h
      exact Option.some.inj h
    have hrw : a.dropLast ++ x :: cs = a ++ cs := by
      rw [show a.dropLast ++ x :: cs = (a.dropLast ++ [x]) ++ cs by simp]
      rw [← hx, List.dropLast_append_getLast ha]
    rw [hrw, pathWeight_append]
    have hc2 : pathWeight G (x :: cs) = pathWeight G cs + linkW G a cs := by
      rw [show x :: cs = [x] ++ cs from rfl, pathWeight_append, pathWeight_single]
      rw [linkW_congr_last G [x] a cs (by rw [h]; rfl)]
      ring
    rw [hc2]
    ring

theorem head_glue (a c : List Int) (ha : a ≠ []) (h : a.getLast? = c.head?) :
    (a.dropLast ++ c).head? = a.head? := by
  cases c with
  | nil =>
    rw [List.getLast?_eq_getLast_of_ne_nil ha] at h
    exact absurd h (by simp)
  | cons x cs =>
    have hx : a.getLast ha = x := by
      rw [List.getLast?_eq_getLast_of_ne_nil ha] at h
      exact Option.some.inj h
    have hrw : a.dropLast ++ x :: cs = a ++ cs := by
      rw [show a.dropLast ++ x :: cs = (a.dropLast ++ [x]) ++ cs by simp]
      rw [← hx, List.dropLast_append_getLast ha]
    rw [hrw]
    exact List.head?_append_of_ne_nil _ ha

theorem pathWeight_reverse (G : Graph) : ∀ (p : List Int),
    pathWeight G p.reverse = pathWeight G p := by
  intro p
  induction p with
  | nil => rfl
  | cons u xs ih =>
    rw [List.reverse_cons, pathWeight_append, ih, pathWeight_single]
    unfold linkW
    rw [List.getLast?_reverse]
    cases xs with
    | nil => simp [pathWeight_nil, pathWeight_single]
    | cons v xs2 =>
      rw [show (v :: xs2).head? = some v from rfl,
        show ([u] : List Int).head? = some u from rfl]
      rw [pathWeight_cons2, getW_comm]
      ring

theorem pathWeight_join (G : Graph) (p1 p2 : List Int) (h1 : p1 ≠ []) (h2 : p2 ≠ [])
    (h : p1.getLast? = p2.head?) :
    pathWeight G (p1 ++ p2.drop 1) = pathWeight G p1 + pathWeight G p2 := by
  cases p2 with
  | nil => exact absurd rfl h2
  | cons x cs =>
    rw [show (x :: cs).drop 1 = cs from rfl, pathWeight_append]
    have hc2 : pathWeight G (x :: cs) = pathWeight G cs + linkW G p1 cs := by
      rw [show x :: cs = [x] ++ cs from rfl, pathWeight_append, pathWeight_single]
      rw [linkW_congr_last G [x] p1 cs (by rw [h]; rfl)]
      ring
    rw [hc2]
    ring

theorem pathWeight_replace_mid (G : Graph) (P T S : List Int) (a b : Int)
    (hS : S ≠ []) (hh : S.head? = some a) (hl : S.getLast? = some b) :
    pathWeight G (P ++ S ++ T) + G.getW a b
      = pathWeight G (P ++ ([a, b] ++ T)) + pathWeight G S := by
  rw [List.append_assoc, pathWeight_append G P (S ++ T), pathWeight_append G S T,
    pathWeight_append G P ([a, b] ++ T), pathWeight_append G [a, b] T]
  rw [linkW_congr_head G P (S ++ T) ([a, b] ++ T)
    (by rw [List.head?_append_of_ne_nil _ hS, List.head?_append_of_ne_nil _ (by simp), hh]; rfl)]
  rw [linkW_congr_last G S [a, b] T (by rw [hl]; rfl)]
  rw [show pathWeight G [a, b] = G.getW a b + 0 from rfl]
  ring

/-- C5 (amended): for every satellite id `n ≥ 0`, `get_node_position` returns
`plane = n div 66`, `indexInPlane = 66 - (n mod 66)`,
`x = indexInPlane - 33` when `indexInPlane > 32` (not `> 33` as claimed),
`x = indexInPlane + 33` otherwise, and `y = -plane`. -/
theorem C5_position_formula (n : Int) (h : 0 ≤ n) :
    get_node_position n =
      some (if 32 < 66 - n % 66 then 66 - n % 66 - 33 else 66 - n % 66 + 33,
        -(n / 66)) := by
  unfold get_node_position
  rw [if_neg (by omega)]
  dsimp only
  rw [Int.fdiv_eq_ediv n (by norm_num)]
  rw [show n - 66 * (n / 66) = n % 66 by omega]

/-- Witness for `C5_position_formula` at `n = 5`. -/
theorem C5_position_formula_witness :
    get_node_position 5 =
      some (if 32 < 66 - (5 : Int) % 66 then 66 - (5 : Int) % 66 - 33
            else 66 - (5 : Int) % 66 + 33, -((5 : Int) / 66)) :=
  C5_position_formula 5 (by decide)

/-- C10: `find_path_via_spare_zones` never returns more than one path: for
every graph, position map and zone membership map, a returned list is either
empty or a single path. -/
theorem C10_at_most_one_path (G : Graph) (positions : PosMap)
    (zones : List (Nat × List Int)) (source target : Int) (l : List (List Int))
    (h : find_path_via_spare_zones G positions zones source target = some l) :
    l.length ≤ 1 := by
  unfold find_path_via_spare_zones at h
  split at h
  · exact absurd h (by simp)
  · dsimp only at h
    split at h
    · exact absurd h (by simp)
    · split at h
      · injection h with h
        subst h
        simp
      · exact absurd h (by simp)
    · split at h
      · exact absurd h (by simp)
      · split at h
        · injection h with h
          subst h
          simp
        · exact absurd h (by simp)
      · injection h with h
        subst h
        simp

/-- Witness for `C10_at_most_one_path` on the concrete graph `Gcb`. -/
theorem C10_at_most_one_path_witness :
    ([[-1, 0, 1, 2, 1, -2]] : List (List Int)).length ≤ 1 :=
  C10_at_most_one_path Gcb [] [(0, [2, 3])] (-1) (-2) _ (by decide)

theorem removeEdges_hasEdge_iff (G : Graph) (es : List (Int × Int)) (u v : Int) :
    (G.removeEdges es).hasEdge u v = true ↔
      (G.hasEdge u v = true ∧ removalMatches es u v = false) := by
  unfold Graph.hasEdge Graph.removeEdges removalMatches
  simp only [List.any_eq_true, List.mem_filter, Bool.or_eq_true, Bool.and_eq_true,
    decide_eq_true_eq, Bool.not_eq_true', List.any_eq_false, Bool.or_eq_false_iff,
    Bool.and_eq_false_iff, decide_eq_false_iff_not]
  constructor
  · rintro ⟨e, ⟨he, hno⟩, hq⟩
    refine ⟨⟨e, he, hq⟩, ?_⟩
    intro r hr
    have := hno r hr
    rcases hq with ⟨h1, h2⟩ | ⟨h1, h2⟩ <;> subst h1 <;> subst h2 <;> tauto
  · rintro ⟨⟨e, he, hq⟩, hno⟩
    refine ⟨e, ⟨he, ?_⟩, hq⟩
    intro r hr
    have := hno r hr
    rcases hq with ⟨h1, h2⟩ | ⟨h1, h2⟩ <;> subst h1 <;> subst h2 <;> tauto

theorem zip_dropLast_drop (l : List Int) :
    (l.dropLast).zip (l.drop 1) = l.zip (l.drop 1) := by
  induction l with
  | nil => rfl
  | cons a t ih =>
    cases t with
    | nil => rfl
    | cons b t2 =>
      show (a, b) :: (b :: t2).dropLast.zip t2 = (a, b) :: (b :: t2).zip t2
      have := ih
      simp only [List.drop_one, List.tail_cons] at this
      rw [this]

theorem edges_to_remove_eq_pairs (p : List Int) :
    edges_to_remove p = consecutivePairs (p.drop 1) := by
  unfold edges_to_remove consecutivePairs
  rw [show p.drop 2 = (p.drop 1).drop 1 by rw [List.drop_drop]]
  exact zip_dropLast_drop (p.drop 1)

theorem computeBaseline_spec {G : Graph} {source target : Int} {b : Baseline}
    (h : computeBaseline G source target = some b) :
    shortest_path G source target = .found b.path ∧ 2 ≤ b.path.length ∧
      b.weight = pathWeight G b.path ∧
      b.targetWeight = pathWeight G b.path * (5 / 4) ∧
      b.initialSat = b.path[1]! := by
  unfold computeBaseline at h
  split at h
  case h_1 p hp =>
    split at h
    · injection h with h
      subst h
      exact ⟨hp, by assumption, rfl, rfl, rfl⟩
    · exact absurd h (by simp)
  case h_2 => exact absurd h (by simp)

theorem isPathEdge_split (s i : Int) (rest : List Int) (u v : Int) :
    isPathEdge (s :: i :: rest) u v = true ↔
      (removalMatches (edges_to_remove (s :: i :: rest)) u v = true ∨
        removalMatches [(i, s)] u v = true) := by
  rw [edges_to_remove_eq_pairs]
  unfold isPathEdge removalMatches
  rw [show consecutivePairs (s :: i :: rest) =
        (s, i) :: consecutivePairs (i :: rest) from rfl]
  rw [show (s :: i :: rest).drop 1 = i :: rest from rfl]
  simp only [List.any_cons, List.any_eq_true, Bool.or_eq_true, Bool.and_eq_true,
    decide_eq_true_eq, List.mem_singleton, List.any_nil]
  constructor
  · rintro (hpair | ⟨r, hr, hq⟩)
    · right; tauto
    · left; exact ⟨r, hr, hq⟩
  · rintro (⟨r, hr, hq⟩ | hpair)
    · right; exact ⟨r, hr, hq⟩
    · left; tauto

/-- C3 (amended): the working graph lacks exactly the consecutive edges of
the baseline path — including the initial hop (removed by line 47) and the
final edge into the target — orientation-insensitively; every other edge of
the input graph survives. -/
theorem C3_excluded_edges (G : Graph) (source target : Int) (b : Baseline)
    (u v : Int) (hb : computeBaseline G source target = some b) :
    (workingGraph G source b).hasEdge u v = true ↔
      (G.hasEdge u v = true ∧ isPathEdge b.path u v = false) := by
  obtain ⟨hsp, hlen, -, -, hinit⟩ := computeBaseline_spec hb
  obtain ⟨hne, hhead, -⟩ := shortest_path_found_spec hsp
  unfold workingGraph
  rw [removeEdges_hasEdge_iff, removeEdges_hasEdge_iff]
  cases hp : b.path with
  | nil => exact absurd hp hne
  | cons s tail =>
    cases tail with
    | nil => rw [hp] at hlen; simp at hlen
    | cons i rest =>
      have hs : s = source := by
        rw [hp] at hhead
        exact Option.some.inj hhead
      have hi : b.initialSat = i := by
        rw [hinit, hp]
        simp [List.getElem!_cons_succ, List.getElem!_cons_zero]
      subst hs
      rw [hi]
      have hsplit := isPathEdge_split s i rest u v
      constructor
      · rintro ⟨⟨hG, h1⟩, h2⟩
        refine ⟨hG, ?_⟩
        cases hZ : isPathEdge (s :: i :: rest) u v
        · rfl
        · rcases hsplit.1 hZ with hc | hc
          · rw [h1] at hc; exact absurd hc (by simp)
          · rw [h2] at hc; exact absurd hc (by simp)
      · rintro ⟨hG, hZ⟩
        have hn : ¬ (removalMatches (edges_to_remove (s :: i :: rest)) u v = true ∨
            removalMatches [(i, s)] u v = true) := by
          intro hc
          rw [hsplit.2 hc] at hZ
          exact absurd hZ (by simp)
        refine ⟨⟨hG, ?_⟩, ?_⟩
        · cases hX : removalMatches (edges_to_remove (s :: i :: rest)) u v
          · rfl
          · exact absurd (Or.inl hX) hn
        · cases hY : removalMatches [(i, s)] u v
          · rfl
          · exact absurd (Or.inr hY) hn

/-- Witness for `C3_excluded_edges` on `Gcb` at the surviving edge `(0, 1)`. -/
theorem C3_excluded_edges_witness :
    (workingGraph Gcb (-1) bGcb).hasEdge 0 1 = true ↔
      (Gcb.hasEdge 0 1 = true ∧ isPathEdge bGcb.path 0 1 = false) :=
  C3_excluded_edges Gcb (-1) (-2) bGcb 0 1 (by decide)

theorem zoneBoundsAll_get (ps : PosMap) :
    ∀ (zones : List (Int × Int × Int × Int)) (bs : List (ℚ × ℚ × ℚ × ℚ))
      (i : Nat) (zone : Int × Int × Int × Int),
      zoneBoundsAll ps zones = some bs → zones[i]? = some zone →
      bs[i]? = zoneBounds ps zone := by
  intro zones
  induction zones with
  | nil => intro bs i zone h hz; simp at hz
  | cons z zs ih =>
    intro bs i zone h hz
    unfold zoneBoundsAll at h
    cases hb : zoneBounds ps z with
    | none => rw [hb] at h; exact absurd h (by simp)
    | some b =>
      rw [hb] at h
      cases hbs : zoneBoundsAll ps zs with
      | none => rw [hbs] at h; exact absurd h (by simp)
      | some bs2 =>
        rw [hbs] at h
        injection h with h
        subst h
        cases i with
        | zero =>
          simp only [List.getElem?_cons_zero] at hz
          injection hz with hz
          subst hz
          simp [hb]
        | succ j =>
          simp only [List.getElem?_cons_succ] at hz ⊢
          exact ih bs2 j zone hbs hz

theorem zoneTest_iff (l r ylo yhi x y : ℚ) :
    zoneTest (l, r, ylo, yhi) x y = true ↔
      (ylo ≤ y ∧ y ≤ yhi ∧ (if l > r then x ≥ l ∨ x ≤ r else l ≤ x ∧ x ≤ r)) := by
  unfold zoneTest
  by_cases hlr : l > r
  · rw [if_pos hlr, if_pos hlr]
    simp only [Bool.and_eq_true, Bool.or_eq_true, decide_eq_true_eq]
    tauto
  · rw [if_neg hlr, if_neg hlr]
    simp only [Bool.and_eq_true, decide_eq_true_eq]
    tauto

/-- C8: `find_nodes_in_spare_zones` puts node `n` (position `(x, y)`) in zone
`i`'s member list iff `n` is a satellite (`n ≥ 0`), `y` lies in the zone's
y-band, and `x` lies in the zone's x-band — wrapped (`x ≥ left ∨ x ≤ right`)
when the left bound exceeds the right bound, plain (`left ≤ x ≤ right`)
otherwise.  On a concrete plane of width 66 with a zone of x-bounds (60, 5),
the members are exactly x ∈ {60,…,65} ∪ {0,…,5}; x = 30 is excluded. -/
theorem C8_zone_membership :
    (∀ (G : Graph) (zones : List (Int × Int × Int × Int)) (ps : PosMap)
        (M : List (List Int)) (i : Nat) (zone : Int × Int × Int × Int)
        (l r ylo yhi : ℚ) (n : Int) (x y : ℚ),
        find_nodes_in_spare_zones G zones ps = some M →
        zones[i]? = some zone →
        zoneBounds ps zone = some (l, r, ylo, yhi) →
        n ∈ G.nodes → lookupPos ps n = some (x, y) →
        (n ∈ M[i]?.getD [] ↔
          (0 ≤ n ∧ ylo ≤ y ∧ y ≤ yhi ∧
            (if l > r then x ≥ l ∨ x ≤ r else l ≤ x ∧ x ≤ r)))) ∧
      zoneBounds wrapPos (100, 101, 102, 103) = some (60, 5, 0, 0) ∧
      find_nodes_in_spare_zones GWrap wrapZones wrapPos =
        some [[0, 1, 2, 3, 4, 5, 60, 61, 62, 63, 64, 65]] := by
  refine ⟨?_, by decide, by decide⟩
  intro G zones ps M i zone l r ylo yhi n x y hM hz hbd hn hlook
  unfold find_nodes_in_spare_zones at hM
  dsimp only at hM
  by_cases hproc : (G.nodes.filterMap (fun m =>
      if m < 0 then none else (lookupPos ps m).map (fun p => (m, p)))).isEmpty
  · rw [if_pos hproc] at hM
    injection hM with hM
    subst hM
    constructor
    · intro hmem
      rw [List.getElem?_map, hz] at hmem
      simp at hmem
    · rintro ⟨h0, -⟩
      exfalso
      rw [List.isEmpty_iff] at hproc
      have hmem2 : (n, (x, y)) ∈ G.nodes.filterMap (fun m =>
          if m < 0 then none else (lookupPos ps m).map (fun p => (m, p))) := by
        apply List.mem_filterMap.2
        exact ⟨n, hn, by rw [if_neg (by omega), hlook]; rfl⟩
      rw [hproc] at hmem2
      simp at hmem2
  · rw [if_neg hproc] at hM
    cases hba : zoneBoundsAll ps zones with
    | none => rw [hba] at hM; exact absurd hM (by simp)
    | some bs =>
      rw [hba] at hM
      injection hM with hM
      subst hM
      have hbs : bs[i]? = some (l, r, ylo, yhi) := by
        rw [zoneBoundsAll_get ps zones bs i zone hba hz, hbd]
      rw [List.getElem?_map, hbs]
      simp only [Option.map_some', Option.getD_some]
      constructor
      · intro hmem
        obtain ⟨np, hnpf, hnp1⟩ := List.mem_map.1 hmem
        obtain ⟨hnpp, htest⟩ := List.mem_filter.1 hnpf
        obtain ⟨a, ha, hfa⟩ := List.mem_filterMap.1 hnpp
        by_cases ha0 : a < 0
        · rw [if_pos ha0] at hfa; exact absurd hfa (by simp)
        · rw [if_neg ha0] at hfa
          cases hla : lookupPos ps a with
          | none => rw [hla] at hfa; exact absurd hfa (by simp)
          | some q =>
            rw [hla] at hfa
            injection hfa with hfa
            subst hfa
            dsimp only at hnp1 htest
            subst hnp1
            rw [hla] at hlook
            injection hlook with hlook
            subst hlook
            obtain ⟨hy1, hy2, hx⟩ := (zoneTest_iff l r ylo yhi x y).1 htest
            exact ⟨by omega, hy1, hy2, hx⟩
      · rintro ⟨h0, hy1, hy2, hx⟩
        apply List.mem_map.2
        refine ⟨(n, (x, y)), ?_, rfl⟩
        apply List.mem_filter.2
        constructor
        · apply List.mem_filterMap.2
          exact ⟨n, hn, by rw [if_neg (by omega), hlook]; rfl⟩
        · exact (zoneTest_iff l r ylo yhi x y).2 ⟨hy1, hy2, hx⟩

/-- Witness for the universal part of `C8_zone_membership`: node 3 of the
concrete wraparound instance is a member of the wrapped zone. -/
theorem C8_zone_membership_witness :
    (3 : Int) ∈ (some [(0 : Int), 1, 2, 3, 4, 5, 60, 61, 62, 63, 64, 65]).getD [] ↔
      ((0 : Int) ≤ 3 ∧ (0 : ℚ) ≤ 0 ∧ (0 : ℚ) ≤ 0 ∧
        (if (60 : ℚ) > 5 then (3 : ℚ) ≥ 60 ∨ (3 : ℚ) ≤ 5
         else (60 : ℚ) ≤ 3 ∧ (3 : ℚ) ≤ 5)) :=
  C8_zone_membership.1 GWrap wrapZones wrapPos
    [[0, 1, 2, 3, 4, 5, 60, 61, 62, 63, 64, 65]] 0 (100, 101, 102, 103)
    60 5 0 0 3 3 0 (by decide) (by decide) (by decide) (by decide) (by decide)

/-- C9: (a) when source and target are disconnected, the baseline query's
`NetworkXNoPath` is uncaught and the whole call fails; (b) a zone node
unreachable from the scan anchor (the initial-hop node for entry scans, the
target for exit scans) is skipped without affecting the scan's outcome;
(c) when neither direction attempt produces a qualifying detour, the function
returns the empty list instead of raising. -/
theorem C9_error_handling :
    (∀ (G : Graph) (positions : PosMap) (zones : List (Nat × List Int))
        (source target : Int),
        shortest_path G source target = .noPath →
        find_path_via_spare_zones G positions zones source target = none) ∧
    (∀ (Gc : Graph) (direction basePlane anchor : Int) (zidx : Nat)
        (zs1 zs2 : List Int) (z : Int) (best : Option Cand),
        shortest_path Gc anchor z = .noPath →
        scanZoneNodes Gc direction basePlane anchor zidx (zs1 ++ z :: zs2) best =
          scanZoneNodes Gc direction basePlane anchor zidx (zs1 ++ zs2) best) ∧
    (∀ (G : Graph) (positions : PosMap) (zones : List (Nat × List Int))
        (source target : Int) (b : Baseline),
        computeBaseline G source target = some b →
        directionAttempt G (workingGraph G source b) zones source target b 1 =
          .ok none →
        directionAttempt G (workingGraph G source b) zones source target b (-1) =
          .ok none →
        find_path_via_spare_zones G positions zones source target = some []) := by
  refine ⟨?_, ?_, ?_⟩
  · intro G positions zones source target h
    unfold find_path_via_spare_zones computeBaseline
    rw [h]
  · intro Gc direction basePlane anchor zidx zs1 zs2 z best h
    induction zs1 generalizing best with
    | nil =>
      simp only [List.nil_append]
      simp only [scanZoneNodes]
      by_cases hskip : direction * (Int.fdiv z SATS_PER_PLANE - basePlane) < 0
      · rw [if_pos hskip]
      · rw [if_neg hskip, h]
    | cons a as ih =>
      simp only [List.cons_append]
      simp only [scanZoneNodes]
      by_cases hskip : direction * (Int.fdiv a SATS_PER_PLANE - basePlane) < 0
      · rw [if_pos hskip, if_pos hskip]
        exact ih best
      · rw [if_neg hskip, if_neg hskip]
        cases hsp : shortest_path Gc anchor a with
        | notFound => rfl
        | noPath => exact ih best
        | found p => exact ih _
  · intro G positions zones source target b hb h1 h2
    unfold find_path_via_spare_zones
    rw [hb]
    dsimp only
    rw [h1, h2]

/-- Witness for `C9_error_handling`: a disconnected two-node graph fails
with `none`; an unreachable zone node is skipped; the §8 scenario (both
direction attempts empty) returns `[]`. -/
theorem C9_error_handling_witness :
    find_path_via_spare_zones Gdisc [] [] (-1) (-2) = none ∧
    scanZoneNodes Gdisc 1 0 (-1) 0 ([] ++ (-2) :: []) none =
      scanZoneNodes Gdisc 1 0 (-1) 0 ([] ++ []) none ∧
    find_path_via_spare_zones Gsc [] scZones (-1) (-2) = some [] :=
  ⟨C9_error_handling.1 Gdisc [] [] (-1) (-2) (by decide),
   C9_error_handling.2.1 Gdisc 1 0 (-1) 0 [] [] (-2) none (by decide),
   C9_error_handling.2.2 Gsc [] scZones (-1) (-2) ⟨[-1, 0, 1, 5, -2], 5, 25/4, 0⟩
     (by decide) (by decide) (by decide)⟩

theorem scanZoneNodes_from (Gc : Graph) (direction basePlane anchor : Int) (zidx : Nat) :
    ∀ (zs : List Int) (best : Option Cand) (c : Cand),
      scanZoneNodes Gc direction basePlane anchor zidx zs best = .ok (some c) →
      best = some c ∨
        (∃ z, z ∈ zs ∧ shortest_path Gc anchor z = .found c.path ∧
          c.weight = pathWeight Gc c.path ∧ c.zoneIdx = zidx) := by
  intro zs
  induction zs with
  | nil =>
    intro best c h
    simp only [scanZoneNodes, Except.ok.injEq] at h
    left
    exact h
  | cons z zs2 ih =>
    intro best c h
    simp only [scanZoneNodes] at h
    by_cases hskip : direction * (Int.fdiv z SATS_PER_PLANE - basePlane) < 0
    · rw [if_pos hskip] at h
      rcases ih best c h with h1 | ⟨z2, hz2, hrest⟩
      · left; exact h1
      · right; exact ⟨z2, List.mem_cons_of_mem _ hz2, hrest⟩
    · rw [if_neg hskip] at h
      cases hsp : shortest_path Gc anchor z with
      | notFound => rw [hsp] at h; exact absurd h (by simp)
      | noPath =>
        rw [hsp] at h
        rcases ih best c h with h1 | ⟨z2, hz2, hrest⟩
        · left; exact h1
        · right; exact ⟨z2, List.mem_cons_of_mem _ hz2, hrest⟩
      | found p =>
        rw [hsp] at h
        cases best with
        | none =>
          dsimp only at h
          rcases ih _ c h with h1 | ⟨z2, hz2, hrest⟩
          · right
            refine ⟨z, List.mem_cons_self _ _, ?_⟩
            injection h1 with h1
            rw [← h1]
            exact ⟨hsp, rfl, rfl⟩
          · right; exact ⟨z2, List.mem_cons_of_mem _ hz2, hrest⟩
        | some b0 =>
          dsimp only at h
          by_cases hlt : pathWeight Gc p < b0.weight
          · rw [if_pos hlt] at h
            rcases ih _ c h with h1 | ⟨z2, hz2, hrest⟩
            · right
              refine ⟨z, List.mem_cons_self _ _, ?_⟩
              injection h1 with h1
              rw [← h1]
              exact ⟨hsp, rfl, rfl⟩
            · right; exact ⟨z2, List.mem_cons_of_mem _ hz2, hrest⟩
          · rw [if_neg hlt] at h
            rcases ih _ c h with h1 | ⟨z2, hz2, hrest⟩
            · left; exact h1
            · right; exact ⟨z2, List.mem_cons_of_mem _ hz2, hrest⟩

theorem scanZones_from (Gc : Graph) (direction basePlane anchor : Int) :
    ∀ (zones : List (Nat × List Int)) (best : Option Cand) (c : Cand),
      scanZones Gc direction basePlane anchor zones best = .ok (some c) →
      best = some c ∨ CandFrom Gc anchor zones c := by
  intro zones
  induction zones with
  | nil =>
    intro best c h
    simp only [scanZones, Except.ok.injEq] at h
    left
    exact h
  | cons zp rest ih =>
    obtain ⟨zidx, zns⟩ := zp
    intro best c h
    simp only [scanZones] at h
    cases hstep : scanZoneNodes Gc direction basePlane anchor zidx zns best with
    | error e => rw [hstep] at h; exact absurd h (by simp)
    | ok best2 =>
      rw [hstep] at h
      rcases ih best2 c h with h1 | ⟨zn, hzn, hc⟩
      · subst h1
        rcases scanZoneNodes_from Gc direction basePlane anchor zidx zns best c hstep
          with h2 | ⟨z, hz, hspz, hw, hzi⟩
        · left; exact h2
        · right
          exact ⟨zns, by rw [hzi]; exact List.mem_cons_self _ _, z, hz, hspz, hw⟩
      · right
        exact ⟨zn, List.mem_cons_of_mem _ hzn, hc⟩

/-- C4 (counterexample): on `Gc4` with two zones, the nearest entry path
lands in zone 0 (node 1), but the exit scan — which iterates over every
direction-valid zone, not just the entry zone — selects an exit into zone 1
(node 2) and overwrites `best_zone_idx`, so the refinement pool is zone 1's
member list, not the entry zone's. -/
theorem C4_exit_zone_differs_cex :
    computeBaseline Gc4 (-1) (-2) = some bC4 ∧
    scanZones (workingGraph Gc4 (-1) bC4) 1 0 0 zonesC4 none =
      .ok (some ⟨[0, 1], 1, 0⟩) ∧
    scanZones (workingGraph Gc4 (-1) bC4) 1 0 (-2) (validZones zonesC4 1 0) none =
      .ok (some ⟨[-2, 3, 2], 2, 1⟩) ∧
    zoneMembers zonesC4 1 = [2] ∧
    find_path_via_spare_zones Gc4 [] zonesC4 (-1) (-2) =
      some [[-1, 0, 1, 2, 3, -2]] := by decide

/-- C4 (amended): a successful zone scan started with no incumbent returns a
candidate drawn from the zone list it was given — for the exit scan, the
direction-valid zones, which need not be the entry zone: the candidate's path
is a shortest path from the scan anchor to a member node of the candidate's
recorded zone, and that recorded zone (the best exit's zone) is the one whose
member list feeds the weight-refinement pool. -/
theorem C4_exit_scan_zones (Gc : Graph) (direction basePlane anchor : Int)
    (zones : List (Nat × List Int)) (c : Cand)
    (h : scanZones Gc direction basePlane anchor zones none = .ok (some c)) :
    CandFrom Gc anchor zones c ∧
      (∃ zn, (c.zoneIdx, zn) ∈ zones ∧ ∃ z, z ∈ zn ∧ c.path.getLast? = some z) := by
  rcases scanZones_from Gc direction basePlane anchor zones none c h with h1 | h2
  · exact absurd h1 (by simp)
  · refine ⟨h2, ?_⟩
    obtain ⟨zn, hzn, z, hz, hsp, -⟩ := h2
    exact ⟨zn, hzn, z, hz, (shortest_path_found_spec hsp).2.2⟩

/-- Witness for `C4_exit_scan_zones` at the concrete exit scan of `Gc4`. -/
theorem C4_exit_scan_zones_witness :
    CandFrom (workingGraph Gc4 (-1) bC4) (-2) (validZones zonesC4 1 0)
        ⟨[-2, 3, 2], 2, 1⟩ ∧
      (∃ zn, ((1 : Nat), zn) ∈ validZones zonesC4 1 0 ∧
        ∃ z, z ∈ zn ∧ ([-2, 3, 2] : List Int).getLast? = some z) :=
  C4_exit_scan_zones (workingGraph Gc4 (-1) bC4) 1 0 (-2)
    (validZones zonesC4 1 0) ⟨[-2, 3, 2], 2, 1⟩ (by decide)

theorem trialInsertion_spec {Gc : Graph} {q : List Int} {node : Int} {i : Nat}
    {ins : Insertion} {winc : Weight}
    (h : trialInsertion Gc q node i = .ok (some (ins, winc))) :
    ins.i = i ∧ ins.node = node ∧
      ins.pathTo ≠ [] ∧ ins.pathTo.head? = some q[i-1]! ∧
      ins.pathTo.getLast? = some node ∧
      ins.pathFrom ≠ [] ∧ ins.pathFrom.head? = some node ∧
      ins.pathFrom.getLast? = some q[i]! ∧
      winc = pathWeight Gc ins.pathTo + pathWeight Gc ins.pathFrom -
        Gc.getW q[i-1]! q[i]! := by
  unfold trialInsertion at h
  dsimp only at h
  split at h
  · exact absurd h (by simp)
  · exact absurd h (by simp)
  case h_3 path_to heq1 =>
    split at h
    · exact absurd h (by simp)
    · exact absurd h (by simp)
    case h_3 path_from heq2 =>
      split at h
      · exact absurd h (by simp)
      · injection h with h
        injection h with h
        rw [Prod.mk.injEq] at h
        obtain ⟨hins, hwinc⟩ := h
        subst hins
        obtain ⟨hne1, hh1, hl1⟩ := shortest_path_found_spec heq1
        obtain ⟨hne2, hh2, hl2⟩ := shortest_path_found_spec heq2
        exact ⟨rfl, rfl, hne1, hh1, hl1, hne2, hh2, hl2, hwinc.symm⟩

theorem scanPositions_from (Gc : Graph) (q : List Int) (node : Int) :
    ∀ (ilist : List Nat) (best : Option (Insertion × Weight)) (ins : Insertion)
      (winc : Weight),
      scanPositions Gc q node ilist best = .ok (some (ins, winc)) →
      best = some (ins, winc) ∨
        (0 < winc ∧ ins.i ∈ ilist ∧
          trialInsertion Gc q node ins.i = .ok (some (ins, winc))) := by
  intro ilist
  induction ilist with
  | nil =>
    intro best ins winc h
    simp only [scanPositions, Except.ok.injEq] at h
    left; exact h
  | cons i rest ih =>
    intro best ins winc h
    simp only [scanPositions] at h
    cases ht : trialInsertion Gc q node i with
    | error e => rw [ht] at h; exact absurd h (by simp)
    | ok o =>
      rw [ht] at h
      cases o with
      | none =>
        rcases ih best ins winc h with h1 | ⟨hw, hi, htr⟩
        · left; exact h1
        · right; exact ⟨hw, List.mem_cons_of_mem _ hi, htr⟩
      | some iw =>
        obtain ⟨ins0, w0⟩ := iw
        cases best with
        | none =>
          dsimp only at h
          by_cases h0 : 0 < w0
          · rw [if_pos h0] at h
            rcases ih _ ins winc h with h1 | ⟨hw, hi, htr⟩
            · injection h1 with h1
              rw [Prod.mk.injEq] at h1
              obtain ⟨hi0, hw0⟩ := h1
              subst hi0; subst hw0
              right
              have hspec := trialInsertion_spec ht
              refine ⟨h0, ?_, ?_⟩
              · rw [hspec.1]; exact List.mem_cons_self _ _
              · rw [hspec.1]; exact ht
            · right; exact ⟨hw, List.mem_cons_of_mem _ hi, htr⟩
          · rw [if_neg h0] at h
            rcases ih _ ins winc h with h1 | ⟨hw, hi, htr⟩
            · exact absurd h1 (by simp)
            · right; exact ⟨hw, List.mem_cons_of_mem _ hi, htr⟩
        | some b0 =>
          dsimp only at h
          by_cases hacc : 0 < w0 ∧ w0 < b0.2
          · rw [if_pos hacc] at h
            rcases ih _ ins winc h with h1 | ⟨hw, hi, htr⟩
            · injection h1 with h1
              rw [Prod.mk.injEq] at h1
              obtain ⟨hi0, hw0⟩ := h1
              subst hi0; subst hw0
              right
              have hspec := trialInsertion_spec ht
              refine ⟨hacc.1, ?_, ?_⟩
              · rw [hspec.1]; exact List.mem_cons_self _ _
              · rw [hspec.1]; exact ht
            · right; exact ⟨hw, List.mem_cons_of_mem _ hi, htr⟩
          · rw [if_neg hacc] at h
            rcases ih _ ins winc h with h1 | ⟨hw, hi, htr⟩
            · left; injection h1 with h1; rw [h1]
            · right; exact ⟨hw, List.mem_cons_of_mem _ hi, htr⟩

theorem scanInsertions_from (Gc : Graph) (q : List Int) :
    ∀ (avail : List Int) (best : Option (Insertion × Weight)) (ins : Insertion)
      (winc : Weight),
      scanInsertions Gc q avail best = .ok (some (ins, winc)) →
      best = some (ins, winc) ∨
        (0 < winc ∧ ins.node ∈ avail ∧ ins.i ∈ List.range' 1 (q.length - 1) ∧
          trialInsertion Gc q ins.node ins.i = .ok (some (ins, winc))) := by
  intro avail
  induction avail with
  | nil =>
    intro best ins winc h
    simp only [scanInsertions, Except.ok.injEq] at h
    left; exact h
  | cons node ns ih =>
    intro best ins winc h
    simp only [scanInsertions] at h
    cases hstep : scanPositions Gc q node (List.range' 1 (q.length - 1)) best with
    | error e => rw [hstep] at h; exact absurd h (by simp)
    | ok best2 =>
      rw [hstep] at h
      rcases ih best2 ins winc h with h1 | ⟨hw, hn, hi, htr⟩
      · subst h1
        rcases scanPositions_from Gc q node (List.range' 1 (q.length - 1)) best
            ins winc hstep with h2 | ⟨hw, hi, htr⟩
        · left; exact h2
        · right
          have hspec := trialInsertion_spec htr
          refine ⟨hw, ?_, hi, ?_⟩
          · rw [← hspec.2.1]; exact List.mem_cons_self _ _
          · rw [← hspec.2.1] at htr; exact htr
      · right; exact ⟨hw, List.mem_cons_of_mem _ hn, hi, htr⟩

theorem contains_iff_mem (l : List Int) (a : Int) : l.contains a = true ↔ a ∈ l :=
  List.elem_iff

theorem head?_append_congr {A B : List Int} (P : List Int)
    (h : A.head? = B.head?) : (P ++ A).head? = (P ++ B).head? := by
  cases P with
  | nil => exact h
  | cons p ps => rfl

theorem list_decomp_two {q : List Int} {i : Nat} (h1 : 1 ≤ i) (h2 : i < q.length) :
    q = q.take (i - 1) ++ ([q[i-1]!, q[i]!] ++ q.drop (i + 1)) := by
  have hi1 : i - 1 < q.length := by omega
  have e1 : q.drop (i - 1) = q[i-1]! :: q.drop i := by
    rw [getElem!_pos q (i - 1) hi1, List.drop_eq_getElem_cons hi1,
      show i - 1 + 1 = i by omega]
  have e2 : q.drop i = q[i]! :: q.drop (i + 1) := by
    rw [getElem!_pos q i h2]
    exact List.drop_eq_getElem_cons h2
  calc q = q.take (i - 1) ++ q.drop (i - 1) := (List.take_append_drop _ _).symm
    _ = q.take (i - 1) ++ ([q[i-1]!, q[i]!] ++ q.drop (i + 1)) := by
        rw [e1, e2]; rfl

theorem splice_spec (Gc : Graph) (q : List Int) (ins : Insertion) (winc : Weight)
    (hi1 : 1 ≤ ins.i) (hi2 : ins.i < q.length)
    (ht : trialInsertion Gc q ins.node ins.i = .ok (some (ins, winc)))
    (hnode : ins.node ∉ q) :
    (∀ x, x ∈ q → x ∈ splice q ins) ∧ ins.node ∈ splice q ins ∧
      (splice q ins).head? = q.head? ∧ (splice q ins).getLast? = q.getLast? ∧
      pathWeight Gc (splice q ins) = pathWeight Gc q + winc := by
  obtain ⟨-, -, hpt_ne, hpt_h, hpt_l, hpf_ne, hpf_h, hpf_l, hwinc⟩ := trialInsertion_spec ht
  have hdecomp := list_decomp_two hi1 hi2
  have hb_mem : q[ins.i]! ∈ q := by
    rw [getElem!_pos q ins.i hi2]
    exact List.getElem_mem hi2
  have hnb : ins.node ≠ q[ins.i]! := fun hc => hnode (hc ▸ hb_mem)
  have hpfd_l : (ins.pathFrom.drop 1).getLast? = some q[ins.i]! := by
    cases hpf : ins.pathFrom with
    | nil => exact absurd hpf hpf_ne
    | cons x cs =>
      cases cs with
      | nil =>
        rw [hpf] at hpf_h hpf_l
        simp only [List.head?_cons, List.getLast?_singleton] at hpf_h hpf_l
        exact absurd (by rw [← Option.some.inj hpf_h, Option.some.inj hpf_l]) hnb
      | cons y rest =>
        rw [hpf] at hpf_l
        rw [List.getLast?_cons_cons] at hpf_l
        exact hpf_l
  have hseg_ne : ins.pathTo ++ ins.pathFrom.drop 1 ≠ [] := by
    intro hc
    exact hpt_ne (List.append_eq_nil.1 hc).1
  have hseg_h : (ins.pathTo ++ ins.pathFrom.drop 1).head? = some q[ins.i - 1]! := by
    rw [List.head?_append_of_ne_nil _ hpt_ne, hpt_h]
  have hseg_l : (ins.pathTo ++ ins.pathFrom.drop 1).getLast? = some q[ins.i]! := by
    rw [List.getLast?_append, hpfd_l]
    rfl
  have hseg_w : pathWeight Gc (ins.pathTo ++ ins.pathFrom.drop 1) =
      pathWeight Gc ins.pathTo + pathWeight Gc ins.pathFrom :=
    pathWeight_join Gc _ _ hpt_ne hpf_ne (by rw [hpt_l, hpf_h])
  have hsplice : splice q ins =
      q.take (ins.i - 1) ++ (ins.pathTo ++ ins.pathFrom.drop 1) ++ q.drop (ins.i + 1) := by
    unfold splice
    rw [List.append_assoc (q.take (ins.i - 1)) ins.pathTo (ins.pathFrom.drop 1)]
  refine ⟨?_, ?_, ?_, ?_, ?_⟩
  · intro x hx
    rw [hdecomp] at hx
    rw [hsplice]
    rcases List.mem_append.1 hx with hx1 | hx2
    · exact List.mem_append.2 (Or.inl (List.mem_append.2 (Or.inl hx1)))
    · rcases List.mem_append.1 hx2 with hxab | hxT
      · rcases List.mem_cons.1 hxab with hxa | hxb
        · have hm : x ∈ ins.pathTo := by
            rw [hxa]
            exact List.mem_of_mem_head? (by rw [hpt_h]; rfl)
          exact List.mem_append.2 (Or.inl (List.mem_append.2 (Or.inr
            (List.mem_append.2 (Or.inl hm)))))
        · rw [List.mem_singleton] at hxb
          have hm : x ∈ ins.pathFrom.drop 1 := by
            rw [hxb]
            exact List.mem_of_getLast?_eq_some hpfd_l
          exact List.mem_append.2 (Or.inl (List.mem_append.2 (Or.inr
            (List.mem_append.2 (Or.inr hm)))))
      · exact List.mem_append.2 (Or.inr hxT)
  · rw [hsplice]
    have hm : ins.node ∈ ins.pathTo := List.mem_of_getLast?_eq_some hpt_l
    exact List.mem_append.2 (Or.inl (List.mem_append.2 (Or.inr
      (List.mem_append.2 (Or.inl hm)))))
  · rw [hsplice]
    have hq : q.head? = (q.take (ins.i - 1) ++
        ([q[ins.i - 1]!, q[ins.i]!] ++ q.drop (ins.i + 1))).head? := by
      conv_lhs => rw [hdecomp]
    rw [hq, List.append_assoc]
    apply head?_append_congr
    rw [List.head?_append_of_ne_nil _ hseg_ne, hseg_h]
    rfl
  · rw [hsplice]
    have hq : q.getLast? = (q.take (ins.i - 1) ++
        ([q[ins.i - 1]!, q[ins.i]!] ++ q.drop (ins.i + 1))).getLast? := by
      conv_lhs => rw [hdecomp]
    rw [hq]
    simp only [List.getLast?_append, hseg_l]
    cases htl : (q.drop (ins.i + 1)).getLast? <;> simp
  · have hrepl := pathWeight_replace_mid Gc (q.take (ins.i - 1)) (q.drop (ins.i + 1))
      (ins.pathTo ++ ins.pathFrom.drop 1) q[ins.i - 1]! q[ins.i]! hseg_ne hseg_h hseg_l
    have hq_w : pathWeight Gc q = pathWeight Gc (q.take (ins.i - 1) ++
        ([q[ins.i - 1]!, q[ins.i]!] ++ q.drop (ins.i + 1))) := by
      conv_lhs => rw [hdecomp]
    rw [hsplice, hq_w]
    rw [hseg_w] at hrepl
    linarith [hrepl]

theorem filter_length_mono (zs : List Int) (p1 p2 : Int → Bool)
    (h : ∀ x, p2 x = true → p1 x = true) :
    (zs.filter p2).length ≤ (zs.filter p1).length :=
  List.Sublist.length_le (List.monotone_filter_right zs h)

theorem filter_length_strict (zs q q2 : List Int) (node : Int)
    (hsub : ∀ x, x ∈ q → x ∈ q2) (hin : node ∈ q2) (hout : node ∉ q)
    (hzs : node ∈ zs) :
    (zs.filter (fun n => !(q2.contains n))).length <
      (zs.filter (fun n => !(q.contains n))).length := by
  have himp : ∀ x, (!(q2.contains x)) = true → (!(q.contains x)) = true := by
    intro x hx
    rw [Bool.not_eq_true'] at hx ⊢
    cases hv : q.contains x
    · rfl
    · have hm := (contains_iff_mem q2 x).2 (hsub x ((contains_iff_mem q x).1 hv))
      rw [hx] at hm
      exact absurd hm (by simp)
  induction zs with
  | nil => simp at hzs
  | cons a as ih =>
    rw [List.filter_cons, List.filter_cons]
    by_cases hq2a : q2.contains a = true
    · rw [if_neg (by rw [hq2a]; simp)]
      by_cases hqa : q.contains a = true
      · rw [if_neg (by rw [hqa]; simp)]
        apply ih
        rcases List.mem_cons.1 hzs with h | h
        · exfalso; apply hout; rw [h]; exact (contains_iff_mem q a).1 hqa
        · exact h
      · have hqa2 : q.contains a = false := by
          cases hv : q.contains a
          · rfl
          · exact absurd hv hqa
        rw [if_pos (by rw [hqa2]; simp)]
        calc (as.filter (fun n => !(q2.contains n))).length
            ≤ (as.filter (fun n => !(q.contains n))).length :=
              filter_length_mono as _ _ himp
          _ < (a :: as.filter (fun n => !(q.contains n))).length := by
              simp [List.length_cons]
    · have hq2a2 : q2.contains a = false := by
        cases hv : q2.contains a
        · rfl
        · exact absurd hv hq2a
      have hqa2 : q.contains a = false := by
        cases hv : q.contains a
        · rfl
        · exact absurd ((contains_iff_mem q2 a).2 (hsub a ((contains_iff_mem q a).1 hv))) hq2a
      rw [if_pos (by rw [hq2a2]; simp), if_pos (by rw [hqa2]; simp)]
      have hnas : node ∈ as := by
        rcases List.mem_cons.1 hzs with h | h
        · exact absurd (by rw [← h]; exact (contains_iff_mem q2 node).2 hin) hq2a
        · exact h
      have := ih hnas
      simp only [List.length_cons]
      omega

theorem refineStep_decreases (Gc : Graph) (zoneNodes : List Int) (q : List Int)
    (ins : Insertion) (winc : Weight)
    (hscan : scanInsertions Gc q (zoneNodes.filter (fun n => !(q.contains n))) none =
      .ok (some (ins, winc))) :
    0 < winc ∧ ins.node ∉ q ∧ ins.node ∈ splice q ins ∧
      (∀ x, x ∈ q → x ∈ splice q ins) ∧
      (zoneNodes.filter (fun n => !((splice q ins).contains n))).length <
        (zoneNodes.filter (fun n => !(q.contains n))).length := by
  rcases scanInsertions_from Gc q _ none ins winc hscan with h1 | ⟨hw, hn, hi, htr⟩
  · exact absurd h1 (by simp)
  · obtain ⟨hnzs, hnpred⟩ := List.mem_filter.1 hn
    have hnq : ins.node ∉ q := by
      intro hc
      rw [Bool.not_eq_true'] at hnpred
      have := (contains_iff_mem q ins.node).2 hc
      rw [hnpred] at this
      exact absurd this (by simp)
    obtain ⟨k, hk, hik⟩ := List.mem_range'.1 hi
    have hi1 : 1 ≤ ins.i := by omega
    have hi2 : ins.i < q.length := by omega
    obtain ⟨hsub, hmem, -, -, -⟩ := splice_spec Gc q ins winc hi1 hi2 htr hnq
    exact ⟨hw, hnq, hmem, hsub,
      filter_length_strict zoneNodes q (splice q ins) ins.node hsub hmem hnq hnzs⟩

theorem refineLoop_stable (Gc : Graph) (zoneNodes : List Int) :
    ∀ (f1 f2 : Nat) (st : RefState),
      (zoneNodes.filter (fun n => !(st.zone_path.contains n))).length < f1 →
      (zoneNodes.filter (fun n => !(st.zone_path.contains n))).length < f2 →
      refineLoop Gc zoneNodes f1 st = refineLoop Gc zoneNodes f2 st := by
  intro f1
  induction f1 with
  | zero => intro f2 st h1 h2; omega
  | succ k1 ih =>
    intro f2 st h1 h2
    cases f2 with
    | zero => omega
    | succ k2 =>
      simp only [refineLoop]
      by_cases hneed : 0 < st.needed_weight
      · rw [if_pos hneed, if_pos hneed]
        by_cases hav : (zoneNodes.filter (fun n => !(st.zone_path.contains n))).isEmpty
        · rw [if_pos hav, if_pos hav]
        · rw [if_neg hav, if_neg hav]
          cases hscan : scanInsertions Gc st.zone_path
              (zoneNodes.filter (fun n => !(st.zone_path.contains n))) none with
          | error e => rfl
          | ok o =>
            cases o with
            | none => rfl
            | some iw =>
              obtain ⟨ins, winc⟩ := iw
              obtain ⟨-, -, -, -, hdec⟩ :=
                refineStep_decreases Gc zoneNodes st.zone_path ins winc hscan
              apply ih k2
                ⟨splice st.zone_path ins, st.zone_weight + winc,
                  st.total_weight + winc, st.needed_weight - winc⟩
              · show (zoneNodes.filter
                    (fun n => !((splice st.zone_path ins).contains n))).length < k1
                omega
              · show (zoneNodes.filter
                    (fun n => !((splice st.zone_path ins).contains n))).length < k2
                omega
      · rw [if_neg hneed, if_neg hneed]

/-- C7: every accepted insertion of the weight-refinement loop has a strictly
positive weight increase — so the total path weight strictly increases each
iteration — the inserted zone node joins the zone path while all previous
path nodes are kept, and the pool of unused zone nodes strictly shrinks;
consequently |zone| × |path length| + 1 fuel makes the fuelled loop equal to
the loop with any larger fuel (the loop terminates within that many
iterations). -/
theorem C7_refinement_monotonic_terminating :
    (∀ (Gc : Graph) (zoneNodes q : List Int) (ins : Insertion) (winc : Weight),
        scanInsertions Gc q (zoneNodes.filter (fun n => !(q.contains n))) none =
          .ok (some (ins, winc)) →
        0 < winc ∧ ins.node ∉ q ∧ ins.node ∈ splice q ins ∧
          (∀ x, x ∈ q → x ∈ splice q ins) ∧
          (zoneNodes.filter (fun n => !((splice q ins).contains n))).length <
            (zoneNodes.filter (fun n => !(q.contains n))).length) ∧
    (∀ (Gc : Graph) (zoneNodes : List Int) (st : RefState) (f : Nat),
        st.zone_path ≠ [] →
        zoneNodes.length * st.zone_path.length + 1 ≤ f →
        refineLoop Gc zoneNodes (zoneNodes.length * st.zone_path.length + 1) st =
          refineLoop Gc zoneNodes f st) := by
  constructor
  · intro Gc zoneNodes q ins winc h
    exact refineStep_decreases Gc zoneNodes q ins winc h
  · intro Gc zoneNodes st f hne hf
    have h1 : (zoneNodes.filter (fun n => !(st.zone_path.contains n))).length ≤
        zoneNodes.length := List.length_filter_le _ _
    have h2 : 1 ≤ st.zone_path.length := by
      cases hc : st.zone_path with
      | nil => exact absurd hc hne
      | cons a l => simp
    have h3 : zoneNodes.length * 1 ≤ zoneNodes.length * st.zone_path.length :=
      Nat.mul_le_mul_left _ h2
    apply refineLoop_stable <;> omega

/-- Witness for `C7_refinement_monotonic_terminating` on the triangle graph
`Gr`: zone path `[0, 1]`, zone node 2, accepted insertion `0-2-1`. -/
theorem C7_refinement_witness :
    (0 < (1 : Weight) ∧ (2 : Int) ∉ ([0, 1] : List Int) ∧
      (2 : Int) ∈ splice [0, 1] ⟨1, 2, [0, 2], [2, 1]⟩ ∧
      (∀ x, x ∈ ([0, 1] : List Int) → x ∈ splice [0, 1] ⟨1, 2, [0, 2], [2, 1]⟩) ∧
      (([2] : List Int).filter
          (fun n => !((splice [0, 1] ⟨1, 2, [0, 2], [2, 1]⟩).contains n))).length <
        (([2] : List Int).filter (fun n => !(([0, 1] : List Int).contains n))).length) ∧
    refineLoop Gr [2] (1 * 2 + 1) ⟨[0, 1], 1, 1, 1⟩ =
      refineLoop Gr [2] 7 ⟨[0, 1], 1, 1, 1⟩ :=
  ⟨C7_refinement_monotonic_terminating.1 Gr [2] [0, 1] ⟨1, 2, [0, 2], [2, 1]⟩ 1
      (by decide),
   C7_refinement_monotonic_terminating.2 Gr [2] ⟨[0, 1], 1, 1, 1⟩ 7
      (by decide) (by decide)⟩

theorem getLast?_eq_getLast! (l : List Int) (h : l ≠ []) :
    l.getLast? = some l.getLast! := by
  rw [List.getLast!_of_getLast? (List.getLast?_eq_getLast_of_ne_nil h)]
  exact List.getLast?_eq_getLast_of_ne_nil h

theorem reverse_drop_one (X : List Int) (h : X ≠ []) :
    X.reverse.drop 1 = X.dropLast.reverse := by
  have hx : X = X.dropLast ++ [X.getLast h] := (List.dropLast_append_getLast h).symm
  conv_lhs => rw [hx]
  rw [List.reverse_append]
  simp

theorem refineStep_weight (Gc : Graph) (zoneNodes : List Int) (q : List Int)
    (ins : Insertion) (winc : Weight)
    (hscan : scanInsertions Gc q (zoneNodes.filter (fun n => !(q.contains n))) none =
      .ok (some (ins, winc))) :
    (splice q ins).head? = q.head? ∧ (splice q ins).getLast? = q.getLast? ∧
      pathWeight Gc (splice q ins) = pathWeight Gc q + winc := by
  rcases scanInsertions_from Gc q _ none ins winc hscan with h1 | ⟨hw, hn, hi, htr⟩
  · exact absurd h1 (by simp)
  · obtain ⟨hnzs, hnpred⟩ := List.mem_filter.1 hn
    have hnq : ins.node ∉ q := by
      intro hc
      rw [Bool.not_eq_true'] at hnpred
      have hm := (contains_iff_mem q ins.node).2 hc
      rw [hnpred] at hm
      exact absurd hm (by simp)
    obtain ⟨k, hk, hik⟩ := List.mem_range'.1 hi
    obtain ⟨-, -, hh, hl, hwt⟩ := splice_spec Gc q ins winc (by omega) (by omega) htr hnq
    exact ⟨hh, hl, hwt⟩

theorem refineLoop_inv (Gc : Graph) (zoneNodes : List Int) (off : Weight)
    (hd ed : Int) :
    ∀ (fuel : Nat) (st st2 : RefState),
      refineLoop Gc zoneNodes fuel st = .ok st2 →
      st.zone_path.head? = some hd →
      st.zone_path.getLast? = some ed →
      st.total_weight = off + pathWeight Gc st.zone_path →
      (st2.zone_path.head? = some hd ∧ st2.zone_path.getLast? = some ed ∧
        st2.total_weight = off + pathWeight Gc st2.zone_path) := by
  intro fuel
  induction fuel with
  | zero =>
    intro st st2 h hh hl hw
    simp only [refineLoop, Except.ok.injEq] at h
    subst h
    exact ⟨hh, hl, hw⟩
  | succ k ih =>
    intro st st2 h hh hl hw
    simp only [refineLoop] at h
    by_cases hneed : 0 < st.needed_weight
    · rw [if_pos hneed] at h
      by_cases hav : (zoneNodes.filter (fun n => !(st.zone_path.contains n))).isEmpty
      · rw [if_pos hav] at h
        injection h with h
        subst h
        exact ⟨hh, hl, hw⟩
      · rw [if_neg hav] at h
        cases hscan : scanInsertions Gc st.zone_path
            (zoneNodes.filter (fun n => !(st.zone_path.contains n))) none with
        | error e => rw [hscan] at h; exact absurd h (by simp)
        | ok o =>
          rw [hscan] at h
          cases o with
          | none =>
            injection h with h
            subst h
            exact ⟨hh, hl, hw⟩
          | some iw =>
            obtain ⟨ins, winc⟩ := iw
            obtain ⟨hh2, hl2, hwt2⟩ :=
              refineStep_weight Gc zoneNodes st.zone_path ins winc hscan
            apply ih _ st2 h
            · show (splice st.zone_path ins).head? = some hd
              rw [hh2]; exact hh
            · show (splice st.zone_path ins).getLast? = some ed
              rw [hl2]; exact hl
            · show st.total_weight + winc =
                off + pathWeight Gc (splice st.zone_path ins)
              rw [hwt2, hw]; ring
    · rw [if_neg hneed] at h
      injection h with h
      subst h
      exact ⟨hh, hl, hw⟩

theorem scanZones_cand_spec {Gc : Graph} {d bp anchor : Int}
    {zones : List (Nat × List Int)} {c : Cand}
    (h : scanZones Gc d bp anchor zones none = .ok (some c)) :
    c.path ≠ [] ∧ c.path.head? = some anchor ∧ c.weight = pathWeight Gc c.path := by
  rcases scanZones_from Gc d bp anchor zones none c h with h1 | ⟨zn, hzn, z, hz, hsp, hw⟩
  · exact absurd h1 (by simp)
  · obtain ⟨hne, hh, -⟩ := shortest_path_found_spec hsp
    exact ⟨hne, hh, hw⟩

theorem directionAttempt_spec {G : Graph} {zones : List (Nat × List Int)}
    {source target : Int} {b : Baseline} {d : Int} {r : List Int × Weight}
    (h : directionAttempt G (workingGraph G source b) zones source target b d =
      .ok (some r)) :
    pathWeight G r.1 = r.2 ∧ b.targetWeight ≤ r.2 ∧
      r.1.head? = some source ∧ r.1.tail.head? = some b.initialSat := by
  unfold directionAttempt at h
  dsimp only at h
  split at h
  · exact absurd h (by simp)
  · exact absurd h (by simp)
  case h_3 entry hentry =>
    split at h
    · exact absurd h (by simp)
    · exact absurd h (by simp)
    case h_3 exitC hexit =>
      split at h
      · exact absurd h (by simp)
      · exact absurd h (by simp)
      case h_3 zone_path0 hzp =>
        split at h
        · exact absurd h (by simp)
        case h_2 st hrefine =>
          split at h
          case isTrue hge =>
            injection h with h
            injection h with h
            obtain ⟨hAne, hAh, hAw⟩ := scanZones_cand_spec hentry
            obtain ⟨hXne, hXh, hXw⟩ := scanZones_cand_spec hexit
            obtain ⟨hZ0ne, hZ0h, hZ0l⟩ := shortest_path_found_spec hzp
            have hinv := refineLoop_inv (workingGraph G source b)
              (zoneMembers zones exitC.zoneIdx)
              (G.getW source b.initialSat + entry.weight + exitC.weight)
              (entry.path.getLast!) (exitC.path.getLast!) _ _ st hrefine hZ0h hZ0l rfl
            obtain ⟨hZh, hZl, hZw⟩ := hinv
            have hZne : st.zone_path ≠ [] := by
              intro hc
              rw [hc] at hZh
              exact absurd hZh (by simp)
            have hAlast : entry.path.getLast? = some entry.path.getLast! :=
              getLast?_eq_getLast! _ hAne
            have hXlast : exitC.path.getLast? = some exitC.path.getLast! :=
              getLast?_eq_getLast! _ hXne
            -- the assembled path
            have hS1 : source :: entry.path.dropLast = (source :: entry.path).dropLast :=
              (List.dropLast_cons_of_ne_nil hAne).symm
            have hglue1 : (source :: entry.path).getLast? = st.zone_path.head? := by
              cases hA : entry.path with
              | nil => exact absurd hA hAne
              | cons a0 A2 =>
                rw [List.getLast?_cons_cons, ← hA, hAlast, hZh]
            have hBw : pathWeight G ((source :: entry.path.dropLast) ++ st.zone_path) =
                pathWeight G (source :: entry.path) + pathWeight G st.zone_path := by
              rw [hS1]
              exact pathWeight_glue G (source :: entry.path) st.zone_path
                (by simp) hZne hglue1
            have hBh : ((source :: entry.path.dropLast) ++ st.zone_path).head? =
                some source := by
              rw [hS1]
              rw [head_glue (source :: entry.path) st.zone_path (by simp) hglue1]
              rfl
            have hBl : ((source :: entry.path.dropLast) ++ st.zone_path).getLast? =
                some exitC.path.getLast! := by
              rw [List.getLast?_append, hZl]
              rfl
            have hBne : (source :: entry.path.dropLast) ++ st.zone_path ≠ [] := by
              simp
            have hrev : exitC.path.dropLast.reverse = exitC.path.reverse.drop 1 :=
              (reverse_drop_one _ hXne).symm
            have hjoin : pathWeight G
                (((source :: entry.path.dropLast) ++ st.zone_path) ++
                  exitC.path.reverse.drop 1) =
                pathWeight G ((source :: entry.path.dropLast) ++ st.zone_path) +
                  pathWeight G exitC.path.reverse := by
              apply pathWeight_join G _ _ hBne (by simp [hXne])
              rw [hBl, List.head?_reverse, hXlast]
            have hconsA : pathWeight G (source :: entry.path) =
                G.getW source b.initialSat + pathWeight G entry.path := by
              cases hA : entry.path with
              | nil => exact absurd hA hAne
              | cons a0 A2 =>
                rw [hA] at hAh
                injection hAh with hAh
                rw [pathWeight_cons2, hAh]
            subst h
            refine ⟨?_, ?_, ?_, ?_⟩
            · show pathWeight G (((source :: entry.path.dropLast) ++ st.zone_path) ++
                exitC.path.dropLast.reverse) = st.total_weight
              rw [hrev, hjoin, hBw, hconsA, pathWeight_reverse]
              rw [hZw]
              rw [hAw, hXw, pathWeight_workingGraph, pathWeight_workingGraph,
                pathWeight_workingGraph]
              ring
            · exact hge
            · show (((source :: entry.path.dropLast) ++ st.zone_path) ++
                exitC.path.dropLast.reverse).head? = some source
              rw [List.head?_append_of_ne_nil _ hBne]
              exact hBh
            · show ((((source :: entry.path.dropLast) ++ st.zone_path) ++
                exitC.path.dropLast.reverse)).tail.head? = some b.initialSat
              rw [show ((source :: entry.path.dropLast) ++ st.zone_path) ++
                  exitC.path.dropLast.reverse =
                  source :: ((entry.path.dropLast ++ st.zone_path) ++
                    exitC.path.dropLast.reverse) by simp]
              rw [List.tail_cons]
              rw [List.head?_append_of_ne_nil _
                (by simp [hZne] : entry.path.dropLast ++ st.zone_path ≠ [])]
              rw [head_glue entry.path st.zone_path hAne (by rw [hAlast, hZh])]
              exact hAh
          case isFalse => exact absurd h (by simp)

/-- C1: whenever `find_path_via_spare_zones` reports success (a non-empty
result), the result is a single path whose edge-weight sum is at least 1.25
times the baseline shortest path's weight, and whose first two nodes are the
source and the baseline path's second node (the initial hop is preserved). -/
theorem C1_detour_weight_and_initial_hop (G : Graph) (positions : PosMap)
    (zones : List (Nat × List Int)) (source target : Int) (l : List (List Int))
    (h : find_path_via_spare_zones G positions zones source target = some l)
    (hl : l ≠ []) :
    ∃ p bp, l = [p] ∧ shortest_path G source target = .found bp ∧
      (5 / 4) * pathWeight G bp ≤ pathWeight G p ∧
      p.take 2 = [source, bp[1]!] := by
  unfold find_path_via_spare_zones at h
  split at h
  · exact absurd h (by simp)
  case h_2 b hcb =>
    dsimp only at h
    obtain ⟨hsp, hlen, hwb, htw, hinit⟩ := computeBaseline_spec hcb
    split at h
    · exact absurd h (by simp)
    case h_2 r heq =>
      split at h
      case isTrue hlen3 =>
        injection h with h
        subst h
        obtain ⟨hw, hge, hh, ht⟩ := directionAttempt_spec heq
        refine ⟨r.1, b.path, rfl, hsp, ?_, ?_⟩
        · rw [hw]; rw [htw] at hge; linarith
        · cases hp1 : r.1 with
          | nil => rw [hp1] at hh; exact absurd hh (by simp)
          | cons x0 rest =>
            rw [hp1] at hh ht
            injection hh with hh
            cases rest with
            | nil => simp at ht
            | cons x1 rest2 =>
              simp only [List.tail_cons, List.head?_cons] at ht
              injection ht with ht
              rw [show (x0 :: x1 :: rest2).take 2 = [x0, x1] from rfl]
              rw [hh, ht, hinit]
      case isFalse => exact absurd h (by simp)
    case h_3 heq1 =>
      split at h
      · exact absurd h (by simp)
      case h_2 r heq =>
        split at h
        case isTrue hlen3 =>
          injection h with h
          subst h
          obtain ⟨hw, hge, hh, ht⟩ := directionAttempt_spec heq
          refine ⟨r.1, b.path, rfl, hsp, ?_, ?_⟩
          · rw [hw]; rw [htw] at hge; linarith
          · cases hp1 : r.1 with
            | nil => rw [hp1] at hh; exact absurd hh (by simp)
            | cons x0 rest =>
              rw [hp1] at hh ht
              injection hh with hh
              cases rest with
              | nil => simp at ht
              | cons x1 rest2 =>
                simp only [List.tail_cons, List.head?_cons] at ht
                injection ht with ht
                rw [show (x0 :: x1 :: rest2).take 2 = [x0, x1] from rfl]
                rw [hh, ht, hinit]
        case isFalse => exact absurd h (by simp)
      case h_3 =>
        injection h with h
        subst h
        exact absurd rfl hl

/-- Witness for `C1_detour_weight_and_initial_hop` on `Gcb`, where the search
succeeds with weight 5 against a baseline of weight 2. -/
theorem C1_detour_witness :
    ∃ p bp, ([[-1, 0, 1, 2, 1, -2]] : List (List Int)) = [p] ∧
      shortest_path Gcb (-1) (-2) = .found bp ∧
      (5 / 4) * pathWeight Gcb bp ≤ pathWeight Gcb p ∧
      p.take 2 = [(-1 : Int), bp[1]!] :=
  C1_detour_weight_and_initial_hop Gcb [] [(0, [2, 3])] (-1) (-2)
    [[-1, 0, 1, 2, 1, -2]] (by decide) (by decide)
